import Mathlib

/-
  Verification of the fastgto-light equity core.

  Shallow embedding of:
  - src/utils/poker_utils.py : card conversions (card_to_treys, treys_to_card)
    and monte_carlo_simulation;
  - src/utils/winrate_utils.py : validate_cards and calculate_win_rate.

  The hand evaluator and the Deck draw primitive are implemented by the
  external treys library (not part of this repository's sources); they are
  modelled here: the card integer encoding follows the treys card layout used
  by Card.new / Card.int_to_str, and the evaluator / draw contract is modelled
  from the specification (spec.md sections 4.1 and 4.2).
-/

namespace FastGto

/-- Card rank, the thirteen values accepted by the UI
    (rank strings 2..9, T, J, Q, K, A in the source). -/
inductive Rank
  | r2 | r3 | r4 | r5 | r6 | r7 | r8 | r9 | rT | rJ | rQ | rK | rA
deriving DecidableEq, Fintype, Repr

/-- Card suit, the four suit symbols accepted by the UI. -/
inductive Suit
  | spade | heart | diamond | club
deriving DecidableEq, Fintype, Repr

/-- Index of a rank in the treys rank string "23456789TJQKA"
    (treys CHAR_RANK_TO_INT_RANK). -/
def rankInt : Rank → Nat
  | .r2 => 0 | .r3 => 1 | .r4 => 2 | .r5 => 3 | .r6 => 4 | .r7 => 5 | .r8 => 6
  | .r9 => 7 | .rT => 8 | .rJ => 9 | .rQ => 10 | .rK => 11 | .rA => 12

/-- The rank character used in the source's RANK_MAP keys and UI strings. -/
def rankChar : Rank → Char
  | .r2 => '2' | .r3 => '3' | .r4 => '4' | .r5 => '5' | .r6 => '6' | .r7 => '7'
  | .r8 => '8' | .r9 => '9' | .rT => 'T' | .rJ => 'J' | .rQ => 'Q' | .rK => 'K'
  | .rA => 'A'

/-- Prime associated to each rank in the treys card encoding (Card.PRIMES). -/
def rankPrime : Rank → Nat
  | .r2 => 2 | .r3 => 3 | .r4 => 5 | .r5 => 7 | .r6 => 11 | .r7 => 13
  | .r8 => 17 | .r9 => 19 | .rT => 23 | .rJ => 29 | .rQ => 31 | .rK => 37
  | .rA => 41

/-- Suit bit in the treys card encoding (Card.CHAR_SUIT_TO_INT_SUIT). -/
def suitInt : Suit → Nat
  | .spade => 1 | .heart => 2 | .diamond => 4 | .club => 8

/-- Lower-case suit character, the value side of the source's SUIT_MAP. -/
def suitChar : Suit → Char
  | .spade => 's' | .heart => 'h' | .diamond => 'd' | .club => 'c'

/-- Suit symbol, the key side of the source's SUIT_MAP
    and the value side of SUIT_MAP_REVERSE. -/
def suitSym : Suit → Char
  | .spade => '♠' | .heart => '♥' | .diamond => '♦' | .club => '♣'

/-- Models the external treys library's Card.new integer layout:
    bits 16.. hold the one-hot rank bit, bits 12-15 the suit bit,
    bits 8-11 the rank index and bits 0-7 the rank prime. -/
def cardNew (r : Rank) (s : Suit) : Nat :=
  ((1 <<< rankInt r) <<< 16) ||| (suitInt s <<< 12) ||| (rankInt r <<< 8) |||
    rankPrime r

/-- treys Card.STR_RANKS as a character list. -/
def strRanks : List Char :=
  ['2', '3', '4', '5', '6', '7', '8', '9', 'T', 'J', 'Q', 'K', 'A']

/-- treys Card.INT_SUIT_TO_CHAR_SUIT ("xshxdxxxc") as a character list. -/
def intSuitToCharSuit : List Char :=
  ['x', 's', 'h', 'x', 'd', 'x', 'x', 'x', 'c']

/-- Models treys Card.int_to_str: read the rank index from bits 8-11 and the
    suit bit from bits 12-15 and look both up in the character tables; `none`
    models a Python IndexError on an out-of-range table index. -/
def intToStr (c : Nat) : Option (Char × Char) :=
  match strRanks[(c >>> 8) &&& 15]?, intSuitToCharSuit[(c >>> 12) &&& 15]? with
  | some rc, some sc => some (rc, sc)
  | _, _ => none

/-- card_to_treys (src/utils/poker_utils.py lines 21-27): `none` rank or suit
    (the empty string in the source) yields None, otherwise the suit symbol is
    mapped through SUIT_MAP and the card is encoded with Card.new. -/
def cardToTreys (r : Option Rank) (s : Option Suit) : Option Nat :=
  match r, s with
  | some r, some s => some (cardNew r s)
  | _, _ => none

/-- SUIT_MAP_REVERSE.get(suit_char, suit_char) from the source: map the treys
    suit character back to its symbol, defaulting to the input character. -/
def suitMapReverseChar (c : Char) : Char :=
  if c = 's' then '♠'
  else if c = 'h' then '♥'
  else if c = 'd' then '♦'
  else if c = 'c' then '♣'
  else c

/-- treys_to_card (src/utils/poker_utils.py lines 29-39): None maps to the
    pair (None, None); otherwise the card is decoded with Card.int_to_str and
    the suit character mapped through SUIT_MAP_REVERSE.  The outer `none`
    models a Python exception inside Card.int_to_str. -/
def treysToCard : Option Nat → Option (Option Char × Option Char)
  | none => some (none, none)
  | some ci =>
    match intToStr ci with
    | none => none
    | some (rc, sc) => some (some rc, some (suitMapReverseChar sc))

/-- Rank value 2..14 of an encoded card (bits 8-11 hold the rank index);
    14 is the Ace, matching the spec's Card data model. -/
def rankOfInt (c : Nat) : Nat := ((c >>> 8) &&& 15) + 2

/-- Suit bit of an encoded card (bits 12-15). -/
def suitOfInt (c : Nat) : Nat := (c >>> 12) &&& 15

/-- Insert into a descending list, keeping it descending. -/
def insertDesc (x : Nat) : List Nat → List Nat
  | [] => [x]
  | y :: ys => if y ≤ x then x :: y :: ys else y :: insertDesc x ys

/-- Sort a list of naturals into descending order. -/
def sortDesc (l : List Nat) : List Nat := l.foldr insertDesc []

/-- Modelled from the spec: high end of a straight, given the distinct rank
    values in descending order; five consecutive ranks, with the Ace playable
    low in the wheel A-2-3-4-5 (spec section 4.2, categories 1 and 5). -/
def straightHighOf (distinctDesc : List Nat) : Option Nat :=
  if distinctDesc.length = 5 then
    if distinctDesc.headD 0 - distinctDesc.getLastD 0 = 4 then
      some (distinctDesc.headD 0)
    else if distinctDesc = [14, 5, 4, 3, 2] then some 5
    else none
  else none

/-- HandScore: category rank (1 = straight flush .. 9 = high card, the treys
    class ordering where a lower category is better) together with the
    tie-break rank tuple of spec section 3. -/
abbrev HandScore := Nat × List Nat

/-- Lexicographic strictly-greater test on tie-break tuples. -/
def lexGtList : List Nat → List Nat → Bool
  | x :: xs, y :: ys =>
    if y < x then true else if x < y then false else lexGtList xs ys
  | _, _ => false

/-- The strict "scored strictly better" order on HandScores used to classify
    trials: a lower category wins, and inside a category the lexicographically
    larger tie-break tuple wins.  Mirrors the treys total order in which a
    numerically lower score is the better hand. -/
def scoreBetter (a b : HandScore) : Bool :=
  if a.1 < b.1 then true else if b.1 < a.1 then false else lexGtList a.2 b.2

/-- Boolean equality of HandScores, the tie test of the classification. -/
def scoreEq (a b : HandScore) : Bool := a == b

/-- Modelled from the spec: the 5-card hand evaluator of spec section 4.2
    (implemented by the external treys library, which is not part of this
    repository's sources).  Classifies exactly five distinct cards using the
    category detection order and tie-break tuples of the spec. -/
def evaluate5 (cards : List Nat) : HandScore :=
  let ranks := cards.map rankOfInt
  let sorted := sortDesc ranks
  let distinct := sorted.dedup
  let suits := cards.map suitOfInt
  let flush := suits.all (fun s => s = suits.headD 0)
  let straightHigh := straightHighOf distinct
  let quads := distinct.filter (fun r => ranks.count r = 4)
  let trips := distinct.filter (fun r => ranks.count r = 3)
  let pairs := distinct.filter (fun r => ranks.count r = 2)
  let singles := distinct.filter (fun r => ranks.count r = 1)
  if flush ∧ straightHigh.isSome then (1, [straightHigh.getD 0])
  else if quads ≠ [] then (2, quads ++ singles)
  else if trips ≠ [] ∧ pairs ≠ [] then (3, trips ++ pairs)
  else if flush then (4, sorted)
  else if straightHigh.isSome then (5, [straightHigh.getD 0])
  else if trips ≠ [] then (6, trips ++ singles)
  else if pairs.length = 2 then (7, pairs ++ singles)
  else if pairs.length = 1 then (8, pairs ++ singles)
  else (9, sorted)

/-- All length-k sublists (combinations) of a card list. -/
def combosLen : Nat → List Nat → List (List Nat)
  | 0, _ => [[]]
  | _ + 1, [] => []
  | k + 1, x :: xs => (combosLen k xs).map (fun c => x :: c) ++ combosLen (k + 1) xs

/-- Best score of a list of HandScores under the scoreBetter order;
    (10, []) is a sentinel strictly worse than every real score. -/
def bestScore : List HandScore → HandScore
  | [] => (10, [])
  | x :: xs => xs.foldl (fun acc s => if scoreBetter s acc then s else acc) x

/-- Modelled from the spec: evaluate(cards) of spec section 4.2 for 5, 6 or 7
    cards: the best achievable HandScore over every 5-card subset. -/
def evaluateBest (cards : List Nat) : HandScore :=
  bestScore ((combosLen 5 cards).map evaluate5)

/-- Per-trial outcome, spec section 3 SimulationOutcome. -/
inductive Outcome
  | Win | Tie | Loss
deriving DecidableEq, Repr

/-- Draw failure, spec section 7 InsufficientCardsError. -/
inductive DrawError
  | insufficientCards
deriving DecidableEq, Repr

deriving instance DecidableEq for Except

/-- Trial classification, src/utils/poker_utils.py lines 146-150: a win iff
    the player's score is better than every opponent score, otherwise a tie
    iff the player's score equals some opponent score, otherwise a loss.
    Parameterized by the strict-better and equality tests on scores: the
    source compares raw treys integers (lower is better); runTrial below
    instantiates it with the HandScore order. -/
def classifyTrial {α : Type} (isBetter isEq : α → α → Bool) (p : α)
    (opps : List α) : Outcome :=
  if opps.all (fun s => isBetter p s) then .Win
  else if opps.any (fun s => isEq p s) then .Tie
  else .Loss

/-- The treys integer comparison used on line 147 of the source
    (a numerically lower score is the better hand). -/
def treysLt (a b : Nat) : Bool := decide (a < b)

/-- The treys integer equality used on line 149 of the source. -/
def treysEq (a b : Nat) : Bool := a == b

/-- The full 52-card universe in the enumeration order of treys
    Deck.GetFullDeck (rank-major, suits s, h, d, c). -/
def fullDeckT : List Nat :=
  ([Rank.r2, .r3, .r4, .r5, .r6, .r7, .r8, .r9, .rT, .rJ, .rQ, .rK, .rA].map
    (fun r => [Suit.spade, .heart, .diamond, .club].map (fun s => cardNew r s))).flatten

/-- Removal of the known cards from the deck, src lines 126-128:
    deck.cards.remove(card) for each hole and known board card
    (Python list.remove removes the first occurrence, List.erase). -/
def removeCards (deck : List Nat) (ks : List Nat) : List Nat :=
  ks.foldl List.erase deck

/-- Modelled from the spec: drawRandom(deck, count) of spec section 4.1,
    implemented by the external treys Deck (not part of this repository's
    sources): remove and return count cards without replacement, checking
    explicitly that the deck holds enough cards and failing with
    InsufficientCardsError otherwise.  The uniform randomness lives in the
    shuffled deck order supplied per trial, so a draw takes the front
    segment of that order. -/
def drawCards (deck : List Nat) (n : Nat) :
    Except DrawError (List Nat × List Nat) :=
  if n ≤ deck.length then .ok (deck.take n, deck.drop n)
  else .error .insufficientCards

/-- Dealing loop of src lines 138-140: each opponent in turn draws two cards
    from the remaining deck. -/
def dealOpponents : Nat → List Nat → Except DrawError (List (List Nat) × List Nat)
  | 0, d => .ok ([], d)
  | n + 1, d =>
    match drawCards d 2 with
    | .error e => .error e
    | .ok (h, d1) =>
      match dealOpponents n d1 with
      | .error e => .error e
      | .ok (hs, d2) => .ok (h :: hs, d2)

/-- Draw phase of one trial, src lines 122-140: build the deck as the shuffled
    universe minus the hole and known board cards, complete the board by
    drawing 5 - k cards when k < 5, then deal two cards to each opponent.
    Returns the drawn board cards and the opponent hands. -/
def trialDraws (holes boardK : List Nat) (opp : Nat) (shuffled : List Nat) :
    Except DrawError (List Nat × List (List Nat)) :=
  let deck0 := removeCards shuffled (holes ++ boardK)
  let need := 5 - boardK.length
  match (if 0 < need then drawCards deck0 need else .ok ([], deck0)) with
  | .error e => .error e
  | .ok (drawn, deck1) =>
    match dealOpponents opp deck1 with
    | .error e => .error e
    | .ok (hands, _) => .ok (drawn, hands)

/-- One full trial, src lines 121-150: draw, evaluate the player's and every
    opponent's 7-card hand on the completed board, and classify the outcome. -/
def runTrial (holes boardK : List Nat) (opp : Nat) (shuffled : List Nat) :
    Except DrawError Outcome :=
  match trialDraws holes boardK opp shuffled with
  | .error e => .error e
  | .ok (drawn, hands) =>
    let board := boardK ++ drawn
    let playerScore := evaluateBest (board ++ holes)
    let oppScores := hands.map (fun h => evaluateBest (board ++ h))
    .ok (classifyTrial scoreBetter scoreEq playerScore oppScores)

/-- The simulation loop of src line 121: trial i uses the i-th shuffled deck
    of the random stream; a failed draw aborts the loop (a Python exception
    propagates out of monte_carlo_simulation). -/
def runTrials (holes boardK : List Nat) (opp : Nat) (rng : Nat → List Nat) :
    Nat → Nat → Except DrawError (List Outcome)
  | 0, _ => .ok []
  | n + 1, i =>
    match runTrial holes boardK opp (rng i) with
    | .error e => .error e
    | .ok o =>
      match runTrials holes boardK opp rng n (i + 1) with
      | .error e => .error e
      | .ok rest => .ok (o :: rest)

/-- EquityResult, spec section 3: the dictionary returned by
    monte_carlo_simulation and calculate_win_rate; error is the optional
    'error' key (absent, hence none, on the simulation path).  Probabilities
    are modelled as exact rationals. -/
structure EquityResult where
  win : ℚ
  tie : ℚ
  loss : ℚ
  error : Option String
deriving DecidableEq, Repr

/-- monte_carlo_simulation, src lines 104-160: run num_simulations trials,
    count wins and ties, and return win = wins/n, tie = ties/n,
    loss = 1 - win - tie. -/
def monteCarloSimulation (holes boardK : List Nat) (opp n : Nat)
    (rng : Nat → List Nat) : Except DrawError EquityResult :=
  match runTrials holes boardK opp rng n 0 with
  | .error e => .error e
  | .ok outs =>
    let winProb : ℚ := (outs.count Outcome.Win : ℚ) / (n : ℚ)
    let tieProb : ℚ := (outs.count Outcome.Tie : ℚ) / (n : ℚ)
    .ok ⟨winProb, tieProb, 1 - winProb - tieProb, none⟩

/-- The duplicate-card error message of src/utils/winrate_utils.py line 36. -/
def dupMsg : String := "同じカードが複数選択されています。すべてのカードは一意である必要があります。"

/-- The missing-hole-card error message of src/utils/winrate_utils.py line 64. -/
def missingHoleMsg : String := "ホールカードが正しく指定されていません。"

/-- The f-string card key rank+suit used by validate_cards (line 24 etc.). -/
def cardStr (r : Rank) (s : Suit) : String := String.mk [rankChar r, suitSym s]

/-- Uncurried card key for a (rank, suit) pair. -/
def cardStrOf (p : Rank × Suit) : String := cardStr p.1 p.2

/-- The fully-specified board slots, as built by the list comprehension on
    src/utils/winrate_utils.py line 80: keep a slot only when both its rank
    and its suit are present. -/
def specifiedSlots (slots : List (Option Rank × Option Suit)) :
    List (Rank × Suit) :=
  slots.filterMap (fun p =>
    match p.1, p.2 with
    | some r, some s => some (r, s)
    | _, _ => none)

/-- The treys board cards built by src/utils/winrate_utils.py lines 68-73:
    a slot contributes a card exactly when both rank and suit are present
    (card_to_treys returns None otherwise, and a treys card integer is never
    zero, so the source's two truthiness tests collapse to this filter). -/
def boardCardsOf (slots : List (Option Rank × Option Suit)) : List Nat :=
  slots.filterMap (fun p => cardToTreys p.1 p.2)

/-- The card-key list collected by validate_cards (src lines 19-32): each hole
    card when fully specified, then every board pair. -/
def collectedCards (c1r : Option Rank) (c1s : Option Suit) (c2r : Option Rank)
    (c2s : Option Suit) (board : List (Rank × Suit)) : List String :=
  (match c1r, c1s with
    | some r, some s => [cardStr r s]
    | _, _ => []) ++
  (match c2r, c2s with
    | some r, some s => [cardStr r s]
    | _, _ => []) ++
  board.map cardStrOf

/-- validate_cards, src/utils/winrate_utils.py lines 7-38: collect the card
    keys and compare the count with the cardinality of the corresponding set
    (List.dedup models the Python set of collected keys). -/
def validateCards (c1r : Option Rank) (c1s : Option Suit) (c2r : Option Rank)
    (c2s : Option Suit) (board : List (Rank × Suit)) : Bool × String :=
  let cards := collectedCards c1r c1s c2r c2s board
  if cards.length ≠ cards.dedup.length then (false, dupMsg) else (true, "")

/-- calculate_win_rate, src/utils/winrate_utils.py lines 40-93.  The board is
    passed as one list of (rank?, suit?) slots, modelling the two parallel
    equal-length lists board_ranks / board_suits of the source.  The second
    component of the returned pair instruments the number of simulation trials
    the call executes: 0 on the validation-error paths, which return before
    monte_carlo_simulation is invoked. -/
def calculateWinRate (c1r : Option Rank) (c1s : Option Suit) (c2r : Option Rank)
    (c2s : Option Suit) (slots : List (Option Rank × Option Suit))
    (numOpponents numSimulations : Nat) (rng : Nat → List Nat) :
    Except DrawError (EquityResult × Nat) :=
  match cardToTreys c1r c1s, cardToTreys c2r c2s with
  | some h1, some h2 =>
    let boardCards := boardCardsOf slots
    let v := validateCards c1r c1s c2r c2s (specifiedSlots slots)
    if v.1 then
      match monteCarloSimulation [h1, h2] boardCards numOpponents
          numSimulations rng with
      | .error e => .error e
      | .ok r => .ok (r, numSimulations)
    else .ok (⟨0, 0, 0, some v.2⟩, 0)
  | _, _ => .ok (⟨0, 0, 0, some missingHoleMsg⟩, 0)

end FastGto

namespace FastGto

/-- C9: round-trip of the card encoding: for every rank in {2..A} and every
    suit in {♠,♥,♦,♣}, treys_to_card (card_to_treys rank suit) returns exactly
    the original rank character and suit symbol. -/
theorem card_encoding_roundtrip :
    ∀ (r : Rank) (s : Suit),
      treysToCard (cardToTreys (some r) (some s)) =
        some (some (rankChar r), some (suitSym s)) := by decide

/-- C7: the evaluator's order on the three literal scenarios: the spade royal
    straight flush beats quad kings, the deuces-full full house beats nines
    and fours two pair, and aces-up with kings beats aces-up with queens,
    where "strictly better" is the scoreBetter order used to classify trials. -/
theorem evaluator_scenarios :
    scoreBetter
      (evaluate5 [cardNew .rA .spade, cardNew .rK .spade, cardNew .rQ .spade,
        cardNew .rJ .spade, cardNew .rT .spade])
      (evaluate5 [cardNew .rK .diamond, cardNew .rK .heart, cardNew .rK .club,
        cardNew .rK .spade, cardNew .r2 .diamond]) = true ∧
    scoreBetter
      (evaluate5 [cardNew .r2 .spade, cardNew .r2 .heart, cardNew .r2 .diamond,
        cardNew .r5 .club, cardNew .r5 .diamond])
      (evaluate5 [cardNew .r9 .spade, cardNew .r9 .heart, cardNew .r4 .diamond,
        cardNew .r4 .club, cardNew .rK .spade]) = true ∧
    scoreBetter
      (evaluate5 [cardNew .rA .spade, cardNew .rA .heart, cardNew .rK .diamond,
        cardNew .rK .heart, cardNew .r2 .club])
      (evaluate5 [cardNew .rA .diamond, cardNew .rA .club, cardNew .rQ .heart,
        cardNew .rQ .diamond, cardNew .r3 .spade]) = true := by decide

/-- C1 counterexample: with player score 100 against opponent scores 100 and
    50 (treys scores, lower is better), the source classifies the trial as a
    Tie, but the claimed section-3 tie condition fails there: the player's
    score is worse than the second opponent's, so by the claim the trial would
    have to be a Loss (the win condition fails as well). -/
theorem classify_tie_counterexample :
    classifyTrial treysLt treysEq 100 [100, 50] = .Tie ∧
    ¬ ((∃ s ∈ [100, 50], (100 : Nat) = s) ∧ ∀ s ∈ [100, 50], (100 : Nat) ≤ s) ∧
    ¬ (∀ s ∈ [100, 50], (100 : Nat) < s) := by decide

/-- C1 amended: a trial is a Win iff the player's score is strictly better
    than every opponent's; a Tie iff it is not a Win and the player's score
    equals at least one opponent's (even when another opponent's score is
    strictly better than the player's); a Loss otherwise. -/
theorem classify_outcome_characterization (p : Nat) (opps : List Nat) :
    (classifyTrial treysLt treysEq p opps = .Win ↔ ∀ s ∈ opps, p < s) ∧
    (classifyTrial treysLt treysEq p opps = .Tie ↔
      (¬ ∀ s ∈ opps, p < s) ∧ ∃ s ∈ opps, p = s) ∧
    (classifyTrial treysLt treysEq p opps = .Loss ↔
      (¬ ∀ s ∈ opps, p < s) ∧ ¬ ∃ s ∈ opps, p = s) := by
  have hall : (opps.all (fun s => treysLt p s) = true) ↔ ∀ s ∈ opps, p < s := by
    simp [List.all_eq_true, treysLt]
  have hany : (opps.any (fun s => treysEq p s) = true) ↔ ∃ s ∈ opps, p = s := by
    simp [List.any_eq_true, treysEq]
  unfold classifyTrial
  by_cases h1 : opps.all (fun s => treysLt p s) = true
  · have hw := hall.mp h1
    simp only [h1, if_true]
    exact ⟨iff_of_true (by simp) hw,
      iff_of_false (by simp) (fun hc => hc.1 hw),
      iff_of_false (by simp) (fun hc => hc.1 hw)⟩
  · have h1' : ¬ ∀ s ∈ opps, p < s := fun h => h1 (hall.mpr h)
    simp only [h1, Bool.false_eq_true, if_false]
    by_cases h2 : opps.any (fun s => treysEq p s) = true
    · simp only [h2, if_true]
      exact ⟨iff_of_false (by simp) h1',
        iff_of_true (by simp) ⟨h1', hany.mp h2⟩,
        iff_of_false (by simp) (fun hc => hc.2 (hany.mp h2))⟩
    · have h2' : ¬ ∃ s ∈ opps, p = s := fun h => h2 (hany.mpr h)
      simp only [h2, Bool.false_eq_true, if_false]
      exact ⟨iff_of_false (by simp) h1',
        iff_of_false (by simp) (fun hc => h2' hc.2),
        iff_of_true (by simp) ⟨h1', h2'⟩⟩

/-- C1 amended witness at a concrete input: with player score 100 against
    opponents 100 and 50 the characterization yields a Tie. -/
theorem classify_outcome_characterization_witness :
    classifyTrial treysLt treysEq 100 [100, 50] = .Tie :=
  ((classify_outcome_characterization 100 [100, 50]).2.1).mpr (by decide)

/-- C6: if either hole card's rank or suit is unspecified, calculate_win_rate
    returns the missing-hole-card error with win, tie and loss all 0 and runs
    zero trials (the instrumented trial count is 0: no simulation happens). -/
theorem missing_hole_card_error (c1r : Option Rank) (c1s : Option Suit)
    (c2r : Option Rank) (c2s : Option Suit)
    (slots : List (Option Rank × Option Suit)) (opp nsim : Nat)
    (rng : Nat → List Nat)
    (h : c1r = none ∨ c1s = none ∨ c2r = none ∨ c2s = none) :
    calculateWinRate c1r c1s c2r c2s slots opp nsim rng =
      .ok (⟨0, 0, 0, some missingHoleMsg⟩, 0) := by
  cases c1r <;> cases c1s <;> cases c2r <;> cases c2s <;>
    simp_all [calculateWinRate, cardToTreys]

/-- C6 witness: a concrete call with the first hole card fully unspecified. -/
theorem missing_hole_card_error_witness :
    calculateWinRate none none (some .rA) (some .spade) [] 1 100
        (fun _ => fullDeckT) =
      .ok (⟨0, 0, 0, some missingHoleMsg⟩, 0) :=
  missing_hole_card_error none none (some .rA) (some .spade) [] 1 100
    (fun _ => fullDeckT) (Or.inl rfl)

/-- calculate_win_rate reads the board slots only through boardCardsOf and
    specifiedSlots, so inputs agreeing on both produce identical results. -/
theorem calculateWinRate_congr (c1r : Option Rank) (c1s : Option Suit)
    (c2r : Option Rank) (c2s : Option Suit)
    (slots₁ slots₂ : List (Option Rank × Option Suit)) (opp nsim : Nat)
    (rng : Nat → List Nat)
    (hb : boardCardsOf slots₁ = boardCardsOf slots₂)
    (hs : specifiedSlots slots₁ = specifiedSlots slots₂) :
    calculateWinRate c1r c1s c2r c2s slots₁ opp nsim rng =
      calculateWinRate c1r c1s c2r c2s slots₂ opp nsim rng := by
  unfold calculateWinRate
  rw [hb, hs]

/-- C10: a board slot with exactly one of rank or suit specified is silently
    treated as unspecified: it contributes no treys board card (so it is not
    removed from the deck), it is excluded from the specified slots used by
    duplicate validation, and the whole calculate_win_rate call behaves as if
    the slot were absent, with no error. -/
theorem half_specified_slot_ignored (c1r : Option Rank) (c1s : Option Suit)
    (c2r : Option Rank) (c2s : Option Suit)
    (pre post : List (Option Rank × Option Suit)) (r : Rank) (s : Suit)
    (opp nsim : Nat) (rng : Nat → List Nat) :
    boardCardsOf (pre ++ (some r, none) :: post) = boardCardsOf (pre ++ post) ∧
    boardCardsOf (pre ++ (none, some s) :: post) = boardCardsOf (pre ++ post) ∧
    specifiedSlots (pre ++ (some r, none) :: post) = specifiedSlots (pre ++ post) ∧
    specifiedSlots (pre ++ (none, some s) :: post) = specifiedSlots (pre ++ post) ∧
    calculateWinRate c1r c1s c2r c2s (pre ++ (some r, none) :: post) opp nsim rng =
      calculateWinRate c1r c1s c2r c2s (pre ++ post) opp nsim rng ∧
    calculateWinRate c1r c1s c2r c2s (pre ++ (none, some s) :: post) opp nsim rng =
      calculateWinRate c1r c1s c2r c2s (pre ++ post) opp nsim rng := by
  have hb1 : boardCardsOf (pre ++ (some r, none) :: post) =
      boardCardsOf (pre ++ post) := by
    simp [boardCardsOf, cardToTreys]
  have hb2 : boardCardsOf (pre ++ (none, some s) :: post) =
      boardCardsOf (pre ++ post) := by
    simp [boardCardsOf, cardToTreys]
  have hs1 : specifiedSlots (pre ++ (some r, none) :: post) =
      specifiedSlots (pre ++ post) := by
    simp [specifiedSlots]
  have hs2 : specifiedSlots (pre ++ (none, some s) :: post) =
      specifiedSlots (pre ++ post) := by
    simp [specifiedSlots]
  exact ⟨hb1, hb2, hs1, hs2,
    calculateWinRate_congr c1r c1s c2r c2s _ _ opp nsim rng hb1 hs1,
    calculateWinRate_congr c1r c1s c2r c2s _ _ opp nsim rng hb2 hs2⟩

/-- A list is duplicate-free exactly when its dedup (the Python set of its
    elements) has the same length. -/
theorem nodup_iff_dedup_length {α : Type} [DecidableEq α] (l : List α) :
    l.Nodup ↔ l.dedup.length = l.length := by
  constructor
  · intro h
    rw [List.dedup_eq_self.mpr h]
  · intro h
    have heq := (List.dedup_sublist l).eq_of_length h
    rw [← heq]
    exact l.nodup_dedup

/-- The rank+suit card key of validate_cards separates distinct cards. -/
theorem cardStrOf_injective : Function.Injective cardStrOf := by decide

/-- The collected validate_cards keys, when both hole cards are specified,
    are the card keys of the hole pairs followed by the board pairs. -/
theorem collectedCards_eq_map (ra : Rank) (sa : Suit) (rb : Rank) (sb : Suit)
    (board : List (Rank × Suit)) :
    collectedCards (some ra) (some sa) (some rb) (some sb) board =
      ((ra, sa) :: (rb, sb) :: board).map cardStrOf := rfl

/-- When validation fails its message is the duplicate-card message. -/
theorem validateCards_snd (c1r : Option Rank) (c1s : Option Suit)
    (c2r : Option Rank) (c2s : Option Suit) (board : List (Rank × Suit))
    (h : (validateCards c1r c1s c2r c2s board).1 = false) :
    (validateCards c1r c1s c2r c2s board).2 = dupMsg := by
  unfold validateCards at *
  by_cases hc : (collectedCards c1r c1s c2r c2s board).length ≠
      (collectedCards c1r c1s c2r c2s board).dedup.length
  · rw [if_pos hc]
  · rw [if_neg hc] at h
    simp at h

/-- The validation-failure path of calculate_win_rate with both hole cards
    specified: the call returns the zeroed result carrying the validation
    message and runs zero trials. -/
theorem calculateWinRate_invalid (ra : Rank) (sa : Suit) (rb : Rank) (sb : Suit)
    (slots : List (Option Rank × Option Suit)) (opp nsim : Nat)
    (rng : Nat → List Nat)
    (h : (validateCards (some ra) (some sa) (some rb) (some sb)
      (specifiedSlots slots)).1 = false) :
    calculateWinRate (some ra) (some sa) (some rb) (some sb) slots opp nsim rng =
      .ok (⟨0, 0, 0, some (validateCards (some ra) (some sa) (some rb) (some sb)
        (specifiedSlots slots)).2⟩, 0) := by
  unfold calculateWinRate cardToTreys
  simp [h]

/-- The simulation path never sets the error field: the dictionary returned by
    monte_carlo_simulation has no error key. -/
theorem monteCarlo_ok_error_none (holes boardK : List Nat) (opp n : Nat)
    (rng : Nat → List Nat) (r : EquityResult)
    (h : monteCarloSimulation holes boardK opp n rng = .ok r) : r.error = none := by
  unfold monteCarloSimulation at h
  cases hrt : runTrials holes boardK opp rng n 0 with
  | error e => rw [hrt] at h; cases h
  | ok outs =>
    rw [hrt] at h
    injection h with h
    rw [← h]

/-- C2: with both hole cards specified, a duplicate (rank, suit) among the
    hole cards and the fully-specified board cards makes calculate_win_rate
    return the duplicate-card error with win, tie and loss all 0 and zero
    trials run; when all specified cards are distinct no duplicate-card error
    is returned; and validation fails exactly when the set of collected card
    keys is smaller than their count. -/
theorem duplicate_card_rejection (ra : Rank) (sa : Suit) (rb : Rank) (sb : Suit)
    (slots : List (Option Rank × Option Suit)) (opp nsim : Nat)
    (rng : Nat → List Nat) :
    (¬ ((ra, sa) :: (rb, sb) :: specifiedSlots slots).Nodup →
      calculateWinRate (some ra) (some sa) (some rb) (some sb) slots opp nsim
          rng = .ok (⟨0, 0, 0, some dupMsg⟩, 0)) ∧
    (((ra, sa) :: (rb, sb) :: specifiedSlots slots).Nodup →
      ∀ res trials,
        calculateWinRate (some ra) (some sa) (some rb) (some sb) slots opp nsim
            rng = .ok (res, trials) → res.error ≠ some dupMsg) ∧
    ((validateCards (some ra) (some sa) (some rb) (some sb)
        (specifiedSlots slots)).1 = false ↔
      (collectedCards (some ra) (some sa) (some rb) (some sb)
          (specifiedSlots slots)).dedup.length ≠
        (collectedCards (some ra) (some sa) (some rb) (some sb)
          (specifiedSlots slots)).length) := by
  have hLmap := collectedCards_eq_map ra sa rb sb (specifiedSlots slots)
  have hmech : (validateCards (some ra) (some sa) (some rb) (some sb)
      (specifiedSlots slots)).1 = false ↔
      (collectedCards (some ra) (some sa) (some rb) (some sb)
        (specifiedSlots slots)).dedup.length ≠
      (collectedCards (some ra) (some sa) (some rb) (some sb)
        (specifiedSlots slots)).length := by
    unfold validateCards
    by_cases hc : (collectedCards (some ra) (some sa) (some rb) (some sb)
        (specifiedSlots slots)).length ≠
        (collectedCards (some ra) (some sa) (some rb) (some sb)
          (specifiedSlots slots)).dedup.length
    · rw [if_pos hc]
      exact iff_of_true rfl (Ne.symm hc)
    · rw [if_neg hc]
      exact iff_of_false (by simp) (fun h => hc (Ne.symm h))
  refine ⟨?_, ?_, hmech⟩
  · intro hdup
    have hmapnd : ¬ (((ra, sa) :: (rb, sb) :: specifiedSlots slots).map
        cardStrOf).Nodup := fun hn => hdup hn.of_map
    have hfalse : (validateCards (some ra) (some sa) (some rb) (some sb)
        (specifiedSlots slots)).1 = false := by
      refine hmech.mpr ?_
      rw [hLmap]
      intro he
      exact hmapnd ((nodup_iff_dedup_length _).mpr he)
    rw [calculateWinRate_invalid ra sa rb sb slots opp nsim rng hfalse,
      validateCards_snd _ _ _ _ _ hfalse]
  · intro hnd res trials hcalc
    have hmapnd : (((ra, sa) :: (rb, sb) :: specifiedSlots slots).map
        cardStrOf).Nodup := hnd.map cardStrOf_injective
    have htrue : (validateCards (some ra) (some sa) (some rb) (some sb)
        (specifiedSlots slots)).1 = true := by
      rcases hval : (validateCards (some ra) (some sa) (some rb) (some sb)
          (specifiedSlots slots)).1 with _ | _
      · exfalso
        have := hmech.mp hval
        rw [hLmap] at this
        exact this ((nodup_iff_dedup_length _).mp hmapnd)
      · rfl
    unfold calculateWinRate cardToTreys at hcalc
    simp only [htrue, if_true] at hcalc
    cases hm : monteCarloSimulation [cardNew ra sa, cardNew rb sb]
        (boardCardsOf slots) opp nsim rng with
    | error e => rw [hm] at hcalc; cases hcalc
    | ok r =>
      rw [hm] at hcalc
      injection hcalc with hcalc
      have hr := monteCarlo_ok_error_none _ _ _ _ _ _ hm
      have hres : res = r := (congrArg Prod.fst hcalc).symm
      rw [hres, hr]
      simp

/-- C2 witness: the same card A♠ supplied as both hole cards yields the
    duplicate-card error with zeroed probabilities and zero trials. -/
theorem duplicate_card_rejection_witness :
    calculateWinRate (some .rA) (some .spade) (some .rA) (some .spade) [] 1 100
        (fun _ => fullDeckT) = .ok (⟨0, 0, 0, some dupMsg⟩, 0) :=
  (duplicate_card_rejection .rA .spade .rA .spade [] 1 100
    (fun _ => fullDeckT)).1 (by decide)

/-- Removing a duplicate-free set of known cards present in a duplicate-free
    deck (the loop of src lines 126-128) keeps the deck duplicate-free,
    shrinks it by exactly the number of removed cards, and leaves exactly the
    deck cards that are not known. -/
theorem removeCards_spec (ks : List Nat) :
    ∀ deck : List Nat, deck.Nodup → ks.Nodup → (∀ x ∈ ks, x ∈ deck) →
      (removeCards deck ks).Nodup ∧
      (removeCards deck ks).length = deck.length - ks.length ∧
      (∀ x, x ∈ removeCards deck ks ↔ x ∈ deck ∧ x ∉ ks) := by
  induction ks with
  | nil =>
    intro deck hd _ _
    exact ⟨hd, by simp [removeCards], by simp [removeCards]⟩
  | cons k ks ih =>
    intro deck hd hk hsub
    have hkdeck : k ∈ deck := hsub k (by simp)
    have hstep : removeCards deck (k :: ks) = removeCards (deck.erase k) ks := rfl
    have hd' : (deck.erase k).Nodup := hd.erase k
    have hknotks : k ∉ ks := (List.nodup_cons.mp hk).1
    have hk' : ks.Nodup := (List.nodup_cons.mp hk).2
    have hsub' : ∀ x ∈ ks, x ∈ deck.erase k := by
      intro x hx
      exact hd.mem_erase_iff.mpr
        ⟨fun he => hknotks (he ▸ hx), hsub x (List.mem_cons_of_mem _ hx)⟩
    obtain ⟨h1, h2, h3⟩ := ih (deck.erase k) hd' hk' hsub'
    refine ⟨hstep ▸ h1, ?_, ?_⟩
    · rw [hstep, h2, List.length_erase_of_mem hkdeck]
      simp only [List.length_cons]
      have : 1 ≤ deck.length := List.length_pos_of_mem hkdeck
      omega
    · intro x
      rw [hstep, h3 x, hd.mem_erase_iff]
      constructor
      · rintro ⟨⟨hxk, hxd⟩, hxks⟩
        exact ⟨hxd, by simp [hxk, hxks]⟩
      · rintro ⟨hxd, hxnot⟩
        simp only [List.mem_cons, not_or] at hxnot
        exact ⟨⟨hxnot.1, hxd⟩, hxnot.2⟩

/-- Dealing n opponents from a sufficiently large deck succeeds, hands out n
    two-card hands whose concatenation is the front 2n-card segment of the
    deck, and leaves the rest. -/
theorem dealOpponents_spec :
    ∀ (n : Nat) (d : List Nat), 2 * n ≤ d.length →
      ∃ hands, dealOpponents n d = .ok (hands, d.drop (2 * n)) ∧
        hands.length = n ∧ (∀ h ∈ hands, h.length = 2) ∧
        hands.flatten = d.take (2 * n) := by
  intro n
  induction n with
  | zero =>
    intro d _
    exact ⟨[], by simp [dealOpponents], rfl, by simp, by simp⟩
  | succ m ih =>
    intro d hlen
    have h2 : 2 ≤ d.length := by omega
    have hdraw : drawCards d 2 = .ok (d.take 2, d.drop 2) := by
      unfold drawCards
      rw [if_pos h2]
    have hlen' : 2 * m ≤ (d.drop 2).length := by
      rw [List.length_drop]
      omega
    obtain ⟨hands, heq, hhl, hh2, hflat⟩ := ih (d.drop 2) hlen'
    refine ⟨d.take 2 :: hands, ?_, by simp [hhl], ?_, ?_⟩
    · unfold dealOpponents
      simp only [hdraw, heq]
      rw [List.drop_drop]
      have harith : 2 + 2 * m = 2 * (m + 1) := by omega
      rw [harith]
    · intro h hmem
      rcases List.mem_cons.mp hmem with h' | h'
      · rw [h', List.length_take]
        omega
      · exact hh2 h h'
    · show d.take 2 ++ hands.flatten = d.take (2 * (m + 1))
      rw [hflat, ← List.take_add]
      congr 1
      omega

/-- C4: under the documented domain (a permutation of the 52-card universe,
    two hole cards, at most five known board cards, all distinct and in the
    universe, at most eight opponents) a trial draws exactly 5 - k board cards
    and opponentCount two-card hands totalling 2 x opponentCount cards, and
    all drawn cards are mutually distinct, lie in the universe, and are
    disjoint from the hole and known board cards. -/
theorem trial_draw_invariant (holes boardK : List Nat) (opp : Nat)
    (shuffled : List Nat) (hperm : shuffled.Perm fullDeckT)
    (hnd : (holes ++ boardK).Nodup)
    (hsub : ∀ x ∈ holes ++ boardK, x ∈ fullDeckT)
    (hh : holes.length = 2) (hk : boardK.length ≤ 5) (ho : opp ≤ 8) :
    ∃ drawn hands,
      trialDraws holes boardK opp shuffled = .ok (drawn, hands) ∧
      drawn.length = 5 - boardK.length ∧
      hands.length = opp ∧ (∀ h ∈ hands, h.length = 2) ∧
      hands.flatten.length = 2 * opp ∧
      (drawn ++ hands.flatten).Nodup ∧
      (∀ x ∈ drawn ++ hands.flatten,
        x ∈ fullDeckT ∧ x ∉ holes ∧ x ∉ boardK) := by
  have hfl : fullDeckT.length = 52 := by decide
  have hfnd : fullDeckT.Nodup := by decide
  have hsn : shuffled.Nodup := hperm.nodup_iff.mpr hfnd
  have hslen : shuffled.length = 52 := hperm.length_eq.trans hfl
  have hsub' : ∀ x ∈ holes ++ boardK, x ∈ shuffled := fun x hx =>
    hperm.mem_iff.mpr (hsub x hx)
  obtain ⟨hd0, hlen0, hmem0⟩ :=
    removeCards_spec (holes ++ boardK) shuffled hsn hnd hsub'
  have hlen0' : (removeCards shuffled (holes ++ boardK)).length =
      50 - boardK.length := by
    rw [hlen0, hslen, List.length_append, hh]
    omega
  have hneed : 5 - boardK.length ≤
      (removeCards shuffled (holes ++ boardK)).length := by omega
  have hbd : (if 0 < 5 - boardK.length then
        drawCards (removeCards shuffled (holes ++ boardK)) (5 - boardK.length)
      else .ok ([], removeCards shuffled (holes ++ boardK))) =
      .ok ((removeCards shuffled (holes ++ boardK)).take (5 - boardK.length),
        (removeCards shuffled (holes ++ boardK)).drop (5 - boardK.length)) := by
    by_cases hpos : 0 < 5 - boardK.length
    · rw [if_pos hpos]
      unfold drawCards
      rw [if_pos hneed]
    · rw [if_neg hpos]
      have hz : 5 - boardK.length = 0 := by omega
      rw [hz]
      simp
  have hlen1 : ((removeCards shuffled (holes ++ boardK)).drop
      (5 - boardK.length)).length = 45 := by
    rw [List.length_drop]
    omega
  have hdeal : 2 * opp ≤ ((removeCards shuffled (holes ++ boardK)).drop
      (5 - boardK.length)).length := by omega
  obtain ⟨hands, hdeq, hhl, hh2, hflat⟩ := dealOpponents_spec opp _ hdeal
  have htd : trialDraws holes boardK opp shuffled =
      .ok ((removeCards shuffled (holes ++ boardK)).take (5 - boardK.length),
        hands) := by
    unfold trialDraws
    simp only [hbd, hdeq]
  have hcomb : (removeCards shuffled (holes ++ boardK)).take
        (5 - boardK.length) ++ hands.flatten =
      (removeCards shuffled (holes ++ boardK)).take
        (5 - boardK.length + 2 * opp) := by
    rw [hflat, ← List.take_add]
  refine ⟨_, hands, htd, ?_, hhl, hh2, ?_, ?_, ?_⟩
  · rw [List.length_take]
    omega
  · rw [hflat, List.length_take]
    omega
  · rw [hcomb]
    exact (List.take_sublist _ _).nodup hd0
  · intro x hx
    rw [hcomb] at hx
    have hx0 : x ∈ removeCards shuffled (holes ++ boardK) :=
      (List.take_sublist _ _).mem hx
    have := (hmem0 x).mp hx0
    have hnotmem : x ∉ holes ++ boardK := this.2
    simp only [List.mem_append, not_or] at hnotmem
    exact ⟨hperm.mem_iff.mp this.1, hnotmem.1, hnotmem.2⟩

/-- C4 witness: a concrete trial with hole cards A♠ A♥, empty board, two
    opponents and the unshuffled universe. -/
theorem trial_draw_invariant_witness :
    ∃ drawn hands,
      trialDraws [cardNew .rA .spade, cardNew .rA .heart] [] 2 fullDeckT =
        .ok (drawn, hands) ∧
      drawn.length = 5 - List.length ([] : List Nat) ∧
      hands.length = 2 ∧ (∀ h ∈ hands, h.length = 2) ∧
      hands.flatten.length = 2 * 2 ∧
      (drawn ++ hands.flatten).Nodup ∧
      (∀ x ∈ drawn ++ hands.flatten,
        x ∈ fullDeckT ∧ x ∉ [cardNew .rA .spade, cardNew .rA .heart] ∧
          x ∉ ([] : List Nat)) :=
  trial_draw_invariant [cardNew .rA .spade, cardNew .rA .heart] [] 2 fullDeckT
    (List.Perm.refl _) (by decide) (by decide) rfl (by decide) (by decide)

/-- C5: the draw primitive fails with InsufficientCardsError exactly when the
    requested count exceeds the remaining deck size (the condition is an
    explicit check in drawRandom), and a failed draw in the first trial is
    fatal: the whole monte_carlo_simulation call returns that error, with no
    retry. -/
theorem draw_insufficient_check :
    (∀ (deck : List Nat) (n : Nat),
      drawCards deck n = .error .insufficientCards ↔ deck.length < n) ∧
    (∀ (holes boardK : List Nat) (opp n : Nat) (rng : Nat → List Nat)
      (e : DrawError), 0 < n → runTrial holes boardK opp (rng 0) = .error e →
      monteCarloSimulation holes boardK opp n rng = .error e) := by
  constructor
  · intro deck n
    unfold drawCards
    by_cases h : n ≤ deck.length
    · rw [if_pos h]
      exact iff_of_false (by simp) (by omega)
    · rw [if_neg h]
      exact iff_of_true rfl (by omega)
  · intro holes boardK opp n rng e hn htrial
    obtain ⟨m, rfl⟩ : ∃ m, n = m + 1 := ⟨n - 1, by omega⟩
    unfold monteCarloSimulation
    have : runTrials holes boardK opp rng (m + 1) 0 = .error e := by
      unfold runTrials
      rw [htrial]
    rw [this]

/-- C5 witness: drawing from an empty deck fails, and a call with 30 opponents
    exhausts the deck, so the whole simulation call fails with
    InsufficientCardsError. -/
theorem draw_insufficient_check_witness :
    drawCards ([] : List Nat) 1 = .error .insufficientCards ∧
    monteCarloSimulation [] [] 30 1 (fun _ => fullDeckT) =
      .error .insufficientCards :=
  ⟨(draw_insufficient_check.1 [] 1).mpr (by decide),
    draw_insufficient_check.2 [] [] 30 1 (fun _ => fullDeckT)
      .insufficientCards (by decide) (by decide)⟩

/-- The trial loop only reads the random stream at the trial indices it runs:
    streams agreeing on [start, start+count) give identical outcome lists. -/
theorem runTrials_rng_congr (holes boardK : List Nat) (opp : Nat)
    (rng₁ rng₂ : Nat → List Nat) :
    ∀ (count start : Nat),
      (∀ i, start ≤ i → i < start + count → rng₁ i = rng₂ i) →
      runTrials holes boardK opp rng₁ count start =
        runTrials holes boardK opp rng₂ count start := by
  intro count
  induction count with
  | zero => intro start _; rfl
  | succ m ih =>
    intro start h
    have h0 : rng₁ start = rng₂ start := h start le_rfl (by omega)
    unfold runTrials
    rw [h0, ih (start + 1) (fun i h1 h2 => h i (by omega) (by omega))]

/-- C8: with fixed inputs, two runs whose random streams agree on the n trial
    indices (in particular two runs from the same fixed seed, since the
    stream is a function of the seed) produce the identical sequence of trial
    outcomes and the identical EquityResult. -/
theorem simulation_deterministic (holes boardK : List Nat) (opp n : Nat)
    (rng₁ rng₂ : Nat → List Nat) (h : ∀ i, i < n → rng₁ i = rng₂ i) :
    runTrials holes boardK opp rng₁ n 0 = runTrials holes boardK opp rng₂ n 0 ∧
    monteCarloSimulation holes boardK opp n rng₁ =
      monteCarloSimulation holes boardK opp n rng₂ := by
  have hrt := runTrials_rng_congr holes boardK opp rng₁ rng₂ n 0
    (fun i h1 h2 => h i (by omega))
  refine ⟨hrt, ?_⟩
  unfold monteCarloSimulation
  rw [hrt]

/-- C8 witness: a concrete instantiation with two syntactically identical
    streams. -/
theorem simulation_deterministic_witness :
    runTrials [] [] 1 (fun _ => ([] : List Nat)) 2 0 =
      runTrials [] [] 1 (fun _ => ([] : List Nat)) 2 0 ∧
    monteCarloSimulation [] [] 1 2 (fun _ => ([] : List Nat)) =
      monteCarloSimulation [] [] 1 2 (fun _ => ([] : List Nat)) :=
  simulation_deterministic [] [] 1 2 (fun _ => []) (fun _ => [])
    (fun _ _ => rfl)

/-- A successful trial loop returns exactly one outcome per requested trial. -/
theorem runTrials_ok_length (holes boardK : List Nat) (opp : Nat)
    (rng : Nat → List Nat) :
    ∀ (count start : Nat) (outs : List Outcome),
      runTrials holes boardK opp rng count start = .ok outs →
      outs.length = count := by
  intro count
  induction count with
  | zero =>
    intro start outs h
    simp only [runTrials] at h
    injection h with h
    rw [← h]
    rfl
  | succ m ih =>
    intro start outs h
    simp only [runTrials] at h
    cases h1 : runTrial holes boardK opp (rng start) with
    | error e => rw [h1] at h; cases h
    | ok o =>
      rw [h1] at h
      cases h2 : runTrials holes boardK opp rng m (start + 1) with
      | error e => rw [h2] at h; cases h
      | ok rest =>
        rw [h2] at h
        injection h with h
        rw [← h]
        simp [ih (start + 1) rest h2]

/-- Each trial is classified exactly once, so wins plus ties never exceed the
    number of trials. -/
theorem count_win_tie_le (outs : List Outcome) :
    outs.count Outcome.Win + outs.count Outcome.Tie ≤ outs.length := by
  induction outs with
  | nil => simp
  | cons o rest ih =>
    cases o <;> simp [List.count_cons] <;> omega

/-- C3: whenever monte_carlo_simulation returns a result for trialCount ≥ 1,
    the probabilities are win = wins/n and tie = ties/n for the Win and Tie
    counts of the n trial outcomes, loss = 1 - win - tie, each probability
    lies in [0, 1], and the three sum exactly to 1 in exact arithmetic. -/
theorem aggregator_probabilities (holes boardK : List Nat) (opp n : Nat)
    (rng : Nat → List Nat) (res : EquityResult) (hn : 1 ≤ n)
    (h : monteCarloSimulation holes boardK opp n rng = .ok res) :
    ∃ outs, runTrials holes boardK opp rng n 0 = .ok outs ∧
      outs.length = n ∧
      res.win = (outs.count Outcome.Win : ℚ) / (n : ℚ) ∧
      res.tie = (outs.count Outcome.Tie : ℚ) / (n : ℚ) ∧
      res.loss = 1 - res.win - res.tie ∧
      0 ≤ res.win ∧ res.win ≤ 1 ∧ 0 ≤ res.tie ∧ res.tie ≤ 1 ∧
      0 ≤ res.loss ∧ res.loss ≤ 1 ∧
      res.win + res.tie + res.loss = 1 := by
  unfold monteCarloSimulation at h
  cases hrt : runTrials holes boardK opp rng n 0 with
  | error e => rw [hrt] at h; cases h
  | ok outs =>
    rw [hrt] at h
    injection h with h
    have hlen := runTrials_ok_length holes boardK opp rng n 0 outs hrt
    have hcnt := count_win_tie_le outs
    have hwle : outs.count Outcome.Win ≤ n := by
      have := List.count_le_length (l := outs) (a := Outcome.Win)
      omega
    have htle : outs.count Outcome.Tie ≤ n := by
      have := List.count_le_length (l := outs) (a := Outcome.Tie)
      omega
    have hnq : (0 : ℚ) < (n : ℚ) := by exact_mod_cast hn
    have hw0 : (0 : ℚ) ≤ (outs.count Outcome.Win : ℚ) / (n : ℚ) :=
      div_nonneg (by positivity) hnq.le
    have ht0 : (0 : ℚ) ≤ (outs.count Outcome.Tie : ℚ) / (n : ℚ) :=
      div_nonneg (by positivity) hnq.le
    have hw1 : (outs.count Outcome.Win : ℚ) / (n : ℚ) ≤ 1 :=
      (div_le_one hnq).mpr (by exact_mod_cast hwle)
    have ht1 : (outs.count Outcome.Tie : ℚ) / (n : ℚ) ≤ 1 :=
      (div_le_one hnq).mpr (by exact_mod_cast htle)
    have hwt : (outs.count Outcome.Win : ℚ) / (n : ℚ) +
        (outs.count Outcome.Tie : ℚ) / (n : ℚ) ≤ 1 := by
      rw [div_add_div_same]
      refine (div_le_one hnq).mpr ?_
      have : outs.count Outcome.Win + outs.count Outcome.Tie ≤ n := by omega
      exact_mod_cast this
    refine ⟨outs, rfl, hlen, ?_⟩
    rw [← h]
    refine ⟨rfl, rfl, rfl, hw0, hw1, ht0, ht1, ?_, ?_, ?_⟩
    · simp only
      linarith
    · simp only
      linarith
    · simp only
      ring

set_option maxRecDepth 4000 in
/-- C3 witness: one trial of A♠ A♥ against one opponent over the unshuffled
    universe; the player wins the single trial, so the result is (1, 0, 0). -/
theorem aggregator_probabilities_witness :
    ∃ outs, runTrials [cardNew .rA .spade, cardNew .rA .heart] [] 1
        (fun _ => fullDeckT) 1 0 = .ok outs ∧
      outs.length = 1 ∧
      (⟨1, 0, 0, none⟩ : EquityResult).win =
        (outs.count Outcome.Win : ℚ) / (1 : ℚ) ∧
      (⟨1, 0, 0, none⟩ : EquityResult).tie =
        (outs.count Outcome.Tie : ℚ) / (1 : ℚ) ∧
      (⟨1, 0, 0, none⟩ : EquityResult).loss =
        1 - (⟨1, 0, 0, none⟩ : EquityResult).win -
          (⟨1, 0, 0, none⟩ : EquityResult).tie ∧
      0 ≤ (⟨1, 0, 0, none⟩ : EquityResult).win ∧
      (⟨1, 0, 0, none⟩ : EquityResult).win ≤ 1 ∧
      0 ≤ (⟨1, 0, 0, none⟩ : EquityResult).tie ∧
      (⟨1, 0, 0, none⟩ : EquityResult).tie ≤ 1 ∧
      0 ≤ (⟨1, 0, 0, none⟩ : EquityResult).loss ∧
      (⟨1, 0, 0, none⟩ : EquityResult).loss ≤ 1 ∧
      (⟨1, 0, 0, none⟩ : EquityResult).win +
        (⟨1, 0, 0, none⟩ : EquityResult).tie +
        (⟨1, 0, 0, none⟩ : EquityResult).loss = 1 :=
  aggregator_probabilities [cardNew .rA .spade, cardNew .rA .heart] [] 1 1
    (fun _ => fullDeckT) ⟨1, 0, 0, none⟩ le_rfl (by
      have houts : runTrials [cardNew .rA .spade, cardNew .rA .heart] [] 1
          (fun _ => fullDeckT) 1 0 = .ok [Outcome.Win] := by decide
      unfold monteCarloSimulation
      rw [houts]
      have hw : List.count Outcome.Win [Outcome.Win] = 1 := rfl
      have ht : List.count Outcome.Tie [Outcome.Win] = 0 := rfl
      simp only [hw, ht]
      norm_num)

end FastGto
